import Mathlib

/-!
Verification of the usage telemetry aggregation engine of claude-powerline-rust.

The definitions below are a shallow embedding of the Rust source:
  - src/utils/claude.rs       (record type, JSONL parsing paths, dedup hash)
  - src/utils/data_aggregation.rs (streaming parse, global dedup and sort)
  - src/utils/pricing.rs      (cumulative counter correction, token totals)
  - src/segments/block.rs     (5-hour session blocks, active block lookup)

Modelling conventions:
  - Rust u32 values are Nat with explicit reduction mod 2^32 wherever the
    Rust code stores into a u32 or performs arithmetic that can wrap in a
    release build; u32 saturating_sub is Nat truncated subtraction.
  - chrono DateTime values are Int milliseconds since the epoch; the block
    logic of the source compares num_milliseconds of differences, and log
    timestamps are modelled at millisecond granularity.
  - serde_json Value is the Json inductive below; a HashMap of raw JSON
    fields is an association list with first-match lookup (real JSON
    objects deserialised into a HashMap have unique keys).
  - HashMap iteration order in the Rust grouping code is unspecified; the
    grouped totals are sums over groups, which are order independent, and
    the embedding fixes the order of distinct keys via List.dedup.
  - Rust sort_by_key is a stable sort; any stable sort by the same key
    yields the same list, and the embedding uses insertion sort
    (List.insertionSort) as its executable model.
  - f64 cost fields and the is_sidechain flag do not appear in any claim
    and are omitted from the record structure; no embedded function below
    reads them.
-/

namespace Powerline

/-- JSON values as stored in the raw field of a parsed record
(serde_json::Value). Numeric payloads are never read by the embedded
functions, which only use string extraction and object lookup. -/
inductive Json where
  | null : Json
  | bool (b : Bool) : Json
  | num (n : Int) : Json
  | str (s : String) : Json
  | arr (elems : List Json) : Json
  | obj (fields : List (String × Json)) : Json

/-- Value::as_str. -/
def Json.asStr : Json → Option String
  | .str s => some s
  | _ => none

/-- Value::get on an object (None for any other variant). -/
def Json.getField : Json → String → Option Json
  | .obj fields, k => fields.lookup k
  | _, _ => none

/-- UsageInfo from src/utils/claude.rs (all fields Option<u32>). -/
structure UsageInfo where
  input_tokens : Option Nat
  output_tokens : Option Nat
  cache_creation_input_tokens : Option Nat
  cache_read_input_tokens : Option Nat

/-- MessageInfo from src/utils/claude.rs. -/
structure MessageInfo where
  id : Option String
  usage : Option UsageInfo
  model : Option String

/-- ParsedEntry from src/utils/claude.rs. The timestamp is milliseconds
since the epoch; raw is the full decoded JSON object of the line. -/
structure ParsedEntry where
  timestamp : Int
  message : Option MessageInfo
  source_file : Option String
  raw : List (String × Json)

/-- 2^32, the modulus of Rust u32 arithmetic. -/
def U32 : Nat := 4294967296

/-- Wrapping u32 addition. -/
def addU32 (a b : Nat) : Nat := (a + b) % U32

/-- The session grouping key used by calculate_total_cost,
calculate_token_breakdown and calculate_weighted_tokens in
src/utils/pricing.rs: source_file, else the raw top level sessionId
string, else the literal "unknown". -/
def session_key (e : ParsedEntry) : String :=
  match e.source_file with
  | some f => f
  | none =>
    match (e.raw.lookup "sessionId").bind Json.asStr with
    | some s => s
    | none => "unknown"

/-- The sort relation of sort_by_key on the timestamp. -/
def tsLe (a b : ParsedEntry) : Prop := a.timestamp ≤ b.timestamp

instance : DecidableRel tsLe := fun a b => Int.decLe a.timestamp b.timestamp

instance : IsTotal ParsedEntry tsLe := ⟨fun a b => Int.le_total a.timestamp b.timestamp⟩

instance : IsTrans ParsedEntry tsLe := ⟨fun _ _ _ h h2 => Int.le_trans h h2⟩

/-- Stable sort by timestamp (sort_by_key in the Rust source; insertion
sort is the executable model of the stable sort). -/
def sortTs (l : List ParsedEntry) : List ParsedEntry := l.insertionSort tsLe

/-- Previous cumulative counters of one session group (the four u32
prev variables in the Rust loops). -/
structure PrevCounters where
  input : Nat
  output : Nat
  cacheCreate : Nat
  cacheRead : Nat

/-- TokenBreakdown from src/utils/pricing.rs (u32 fields). -/
structure TokenBreakdown where
  input_tokens : Nat
  output_tokens : Nat
  cache_creation_input_tokens : Nat
  cache_read_input_tokens : Nat

/-- Fieldwise wrapping addition of breakdowns. -/
def TokenBreakdown.add (a b : TokenBreakdown) : TokenBreakdown :=
  ⟨addU32 a.input_tokens b.input_tokens,
   addU32 a.output_tokens b.output_tokens,
   addU32 a.cache_creation_input_tokens b.cache_creation_input_tokens,
   addU32 a.cache_read_input_tokens b.cache_read_input_tokens⟩

/-- One iteration of the inner loop of calculate_token_breakdown: an
entry with no message or no usage leaves both the previous counters and
the accumulator untouched; otherwise each total gains the saturating
difference of the current and previous cumulative counter. -/
def breakdownStep (st : PrevCounters × TokenBreakdown) (e : ParsedEntry) :
    PrevCounters × TokenBreakdown :=
  match e.message with
  | none => st
  | some m =>
    match m.usage with
    | none => st
    | some u =>
      let prev := st.1
      let acc := st.2
      let inputNow := (u.input_tokens.getD 0) % U32
      let outputNow := (u.output_tokens.getD 0) % U32
      let cacheCreateNow := (u.cache_creation_input_tokens.getD 0) % U32
      let cacheReadNow := (u.cache_read_input_tokens.getD 0) % U32
      (⟨inputNow, outputNow, cacheCreateNow, cacheReadNow⟩,
       ⟨addU32 acc.input_tokens (inputNow - prev.input),
        addU32 acc.output_tokens (outputNow - prev.output),
        addU32 acc.cache_creation_input_tokens (cacheCreateNow - prev.cacheCreate),
        addU32 acc.cache_read_input_tokens (cacheReadNow - prev.cacheRead)⟩)

/-- The per-session part of calculate_token_breakdown: sort the group by
timestamp, then run the delta loop with previous counters starting at
zero. -/
def groupBreakdown (g : List ParsedEntry) : TokenBreakdown :=
  ((sortTs g).foldl breakdownStep (⟨0, 0, 0, 0⟩, ⟨0, 0, 0, 0⟩)).2

/-- The members of one session group, in input order (HashMap push order
in the Rust source). -/
def groupFor (l : List ParsedEntry) (k : String) : List ParsedEntry :=
  l.filter (fun e => session_key e = k)

/-- The distinct session keys of the slice. The Rust HashMap iterates
groups in unspecified order; the totals below are order-independent sums,
and the embedding enumerates the distinct keys with List.dedup. -/
def keysOf (l : List ParsedEntry) : List String := (l.map session_key).dedup

/-- calculate_token_breakdown from src/utils/pricing.rs. -/
def calculate_token_breakdown (l : List ParsedEntry) : TokenBreakdown :=
  (keysOf l).foldl (fun acc k => acc.add (groupBreakdown (groupFor l k))) ⟨0, 0, 0, 0⟩

/-- Substring containment test on character lists (str::contains for a
literal pattern). -/
def charsContain (s pat : List Char) : Bool :=
  s.tails.any (fun t => pat.isPrefixOf t)

/-- Lowercased character list of a string (str::to_lowercase; Rust full
Unicode lowering and the charwise Char.toLower agree on the ASCII model
identifiers involved). -/
def lowerChars (s : String) : List Char := s.data.map Char.toLower

/-- get_model_rate_limit_weight from src/utils/pricing.rs: weight 5 for
a model id containing "opus" case-insensitively, else 1. -/
def get_model_rate_limit_weight (model_id : String) : Nat :=
  if charsContain (lowerChars model_id) (String.data "opus") then 5 else 1

/-- One iteration of the inner loop of calculate_weighted_tokens: the
delta token total of the record times its model weight is added to the
running u32 total (wrapping, as in a release build). -/
def weightedStep (st : PrevCounters × Nat) (e : ParsedEntry) : PrevCounters × Nat :=
  match e.message with
  | none => st
  | some m =>
    match m.usage with
    | none => st
    | some u =>
      let prev := st.1
      let total := st.2
      let inputNow := (u.input_tokens.getD 0) % U32
      let outputNow := (u.output_tokens.getD 0) % U32
      let cacheCreateNow := (u.cache_creation_input_tokens.getD 0) % U32
      let cacheReadNow := (u.cache_read_input_tokens.getD 0) % U32
      let deltaTotal :=
        ((inputNow - prev.input) + (outputNow - prev.output) +
         (cacheCreateNow - prev.cacheCreate) + (cacheReadNow - prev.cacheRead)) % U32
      let weight :=
        match m.model with
        | some mid => get_model_rate_limit_weight mid
        | none => 1
      (⟨inputNow, outputNow, cacheCreateNow, cacheReadNow⟩,
       (total + deltaTotal * weight) % U32)

/-- The per-session part of calculate_weighted_tokens. -/
def groupWeighted (g : List ParsedEntry) : Nat :=
  ((sortTs g).foldl weightedStep (⟨0, 0, 0, 0⟩, 0)).2

/-- calculate_weighted_tokens from src/utils/pricing.rs. -/
def calculate_weighted_tokens (l : List ParsedEntry) : Nat :=
  (keysOf l).foldl (fun acc k => (acc + groupWeighted (groupFor l k)) % U32) 0

/-- 5 hours in milliseconds (session_duration_ms in src/segments/block.rs). -/
def sessionDurationMs : Int := 18000000

/-- floor_to_hour from src/segments/block.rs: zero the minutes, seconds
and nanoseconds, which floors a millisecond epoch timestamp to the hour. -/
def floor_to_hour (t : Int) : Int := t - t % 3600000

/-- State of the block identification loop: emitted blocks, entries of
the open block, and the floored start of the open block. -/
structure BlockState where
  blocks : List (List ParsedEntry)
  cur : List ParsedEntry
  start : Option Int

/-- One iteration of the loop of identify_session_blocks. -/
def blockStep (st : BlockState) (e : ParsedEntry) : BlockState :=
  match st.start with
  | none => ⟨st.blocks, [e], some (floor_to_hour e.timestamp)⟩
  | some blockStart =>
    let sinceStart := e.timestamp - blockStart
    let sinceLast :=
      match st.cur.getLast? with
      | some last => e.timestamp - last.timestamp
      | none => 0
    if sinceStart > sessionDurationMs ∨ sinceLast > sessionDurationMs then
      ⟨st.blocks ++ (if st.cur.isEmpty then [] else [st.cur]), [e],
       some (floor_to_hour e.timestamp)⟩
    else
      ⟨st.blocks, st.cur ++ [e], some blockStart⟩

/-- identify_session_blocks from src/segments/block.rs (the final open
block, when nonempty, is emitted after the loop). -/
def identify_session_blocks (entries : List ParsedEntry) : List (List ParsedEntry) :=
  let st := entries.foldl blockStep ⟨[], [], none⟩
  st.blocks ++ (if st.cur.isEmpty then [] else [st.cur])

/-- The activity test of find_active_block for a single block: the block
has a first entry, now is within 5 hours of the last entry, and now is
before the floored start plus 5 hours. -/
def blockActive (now : Int) (b : List ParsedEntry) : Bool :=
  match b.head? with
  | none => false
  | some first =>
    let blockStart := floor_to_hour first.timestamp
    let blockEnd := blockStart + sessionDurationMs
    let actualEnd := ((b.getLast?).map (fun e => e.timestamp)).getD blockStart
    decide (now - actualEnd < sessionDurationMs) && decide (now < blockEnd)

/-- find_active_block from src/segments/block.rs: scan the emitted
blocks from most recent to oldest and return the first active one. -/
def find_active_block (now : Int) (blocks : List (List ParsedEntry)) :
    Option (List ParsedEntry) :=
  blocks.reverse.find? (blockActive now)

/-- create_unique_hash from src/utils/data_aggregation.rs (identical to
the copy in src/utils/claude.rs): message id from the typed field or the
raw fallback, request id from the raw object, joined by a colon; None
when either half is missing. -/
def create_unique_hash (e : ParsedEntry) : Option String :=
  let messageId :=
    match e.message.bind (fun m => m.id) with
    | some i => some i
    | none => (e.raw.lookup "message").bind (fun v => (v.getField "id").bind Json.asStr)
  match messageId with
  | none => none
  | some mid =>
    match (e.raw.lookup "requestId").bind Json.asStr with
    | none => none
    | some rid => some (mid ++ ":" ++ rid)

/-- The walk of deduplicate_and_sort over the sorted records: keep a
record when its hash is new or missing; the HashSet of seen hashes is
modelled by a list read only through membership. -/
def dedupAux : List ParsedEntry → List String → List ParsedEntry
  | [], _ => []
  | e :: rest, seen =>
    match create_unique_hash e with
    | some h => if h ∈ seen then dedupAux rest seen else e :: dedupAux rest (h :: seen)
    | none => e :: dedupAux rest seen

/-- deduplicate_and_sort from src/utils/data_aggregation.rs: stable sort
by timestamp, then keep the first record per dedup hash, keeping every
record without a hash. -/
def deduplicate_and_sort (entries : List ParsedEntry) : List ParsedEntry :=
  dedupAux (sortTs entries) []

/-- The line decoder (parse_jsonl_line): Except models a line that fails
to decode, ok none a line whose timestamp is missing or filtered out,
and ok some a decoded record. The decoder is shared verbatim by every
parse path, so it is a parameter of the embedding. -/
def LineDecoder : Type := String → Except Unit (Option ParsedEntry)

/-- Split a character stream at newline characters (str::lines and
BufRead::lines both cut on a newline; the possible trailing empty
segment and any carriage returns are removed by the blank skip and the
trim below, so the two splitters agree on the parsed records). -/
def splitNlAux : List Char → List Char → List String
  | [], cur => [String.mk cur.reverse]
  | c :: rest, cur =>
    if c = '\n' then String.mk cur.reverse :: splitNlAux rest []
    else splitNlAux rest (c :: cur)

/-- The lines of a content string. -/
def splitNl (s : String) : List String := splitNlAux s.data []

/-- str::trim: drop whitespace from both ends (Char.isWhitespace covers
the ASCII whitespace appearing in JSONL transcripts). -/
def trimStr (s : String) : String :=
  String.mk (((s.data.dropWhile Char.isWhitespace).reverse.dropWhile Char.isWhitespace).reverse)

/-- parse_jsonl_content from src/utils/claude.rs: split the content into
lines, trim each, skip blank lines, keep decoded records, and skip
undecodable or timestamp-less lines. -/
def parse_jsonl_content (dec : LineDecoder) (content : String) : List ParsedEntry :=
  (splitNl content).foldl
    (fun acc line =>
      if trimStr line = "" then acc
      else
        match dec (trimStr line) with
        | .ok (some e) => acc ++ [e]
        | .ok none => acc
        | .error _ => acc)
    []

/-- The 1 MiB threshold of parse_jsonl_file_mmap. -/
def mmapThreshold : Nat := 1048576

/-- parse_jsonl_file_regular from src/utils/claude.rs: read the whole
file (the content string stands for its bytes, which both paths decode
as UTF-8 identically) and parse it. -/
def parse_jsonl_file_regular (dec : LineDecoder) (content : String) : List ParsedEntry :=
  parse_jsonl_content dec content

/-- parse_jsonl_file_mmap from src/utils/claude.rs: files under 1 MiB
take the buffered path; larger files are memory mapped and the mapped
bytes are parsed with the same content function. -/
def parse_jsonl_file_mmap (dec : LineDecoder) (content : String) : List ParsedEntry :=
  if content.utf8ByteSize < mmapThreshold then parse_jsonl_file_regular dec content
  else parse_jsonl_content dec content

/-- parse_transcript_file_streaming from src/utils/data_aggregation.rs:
line by line decode of one file, tagging each record with the source
path; no deduplication happens here. -/
def parse_transcript_file_streaming (dec : LineDecoder) (path : String)
    (content : String) : List ParsedEntry :=
  (splitNl content).foldl
    (fun acc line =>
      if trimStr line = "" then acc
      else
        match dec (trimStr line) with
        | .ok (some e) => acc ++ [{ e with source_file := some path }]
        | .ok none => acc
        | .error _ => acc)
    []

/-- load_session_entries from src/utils/data_aggregation.rs: it only
forwards to the streaming parse of the one named file. -/
def load_session_entries (dec : LineDecoder) (path : String) (content : String) :
    List ParsedEntry :=
  parse_transcript_file_streaming dec path content

end Powerline

namespace Powerline

/-! Concrete records used by witnesses and counterexamples. -/

/-- A record with a complete dedup key m:r. -/
def eDup : ParsedEntry :=
  ⟨5, some ⟨some "m", none, none⟩, none, [("requestId", Json.str "r")]⟩

/-- A record with no message id and no request id: no dedup key. -/
def eNoKey : ParsedEntry := ⟨5, none, none, []⟩

/-- A line decoder that accepts every line as the same keyed record. -/
def dupDecoder : LineDecoder := fun _ => .ok (some eDup)

/-- C5 witness records at T = 0, T + 4h59m and T + 5h01m. -/
def b5a : ParsedEntry := ⟨0, none, none, []⟩

def b5b : ParsedEntry := ⟨17940000, none, none, []⟩

def b5c : ParsedEntry := ⟨18060000, none, none, []⟩

/-- C6 witness: block started 4 hours before now = 14400000 ... -/
def c6a : ParsedEntry := ⟨0, none, none, []⟩

/-- ... whose last record is 10 minutes before now = 14400000. -/
def c6b : ParsedEntry := ⟨13800000, none, none, []⟩

/-- C6 witness: sole record 6 hours before now = 21600000. -/
def c6z : ParsedEntry := ⟨0, none, none, []⟩


/-- C1 and C2 witness records: one session w.jsonl with cumulative input
counters 1000, 1500, 1500. -/
def wA : ParsedEntry := ⟨0, some ⟨none, some ⟨some 1000, none, none, none⟩, none⟩, some "w.jsonl", []⟩

def wB : ParsedEntry := ⟨1, some ⟨none, some ⟨some 1500, none, none, none⟩, none⟩, some "w.jsonl", []⟩

def wC : ParsedEntry := ⟨2, some ⟨none, some ⟨some 1500, none, none, none⟩, none⟩, some "w.jsonl", []⟩

/-- A record with a message but no usage payload. -/
def wSkip : ParsedEntry := ⟨1, some ⟨none, none, none⟩, some "w.jsonl", []⟩

/-- A second session x.jsonl whose counter restarts at 500. -/
def xB : ParsedEntry := ⟨1, some ⟨none, some ⟨some 500, none, none, none⟩, none⟩, some "x.jsonl", []⟩

/-- C7 witness records. -/
def vS : ParsedEntry :=
  ⟨0, some ⟨none, some ⟨some 1500, none, none, none⟩, some "claude-3-5-sonnet"⟩, some "a.jsonl", []⟩

def vO : ParsedEntry :=
  ⟨1, some ⟨none, some ⟨some 15000, none, none, none⟩, some "claude-opus-4-1"⟩, some "b.jsonl", []⟩

def vN : ParsedEntry :=
  ⟨0, some ⟨none, some ⟨some 42, none, none, none⟩, none⟩, none, []⟩

/-- C10 witness records: no source_file; one with a raw sessionId, two
with none at all carrying counters 1000 then 800. -/
def uSid : ParsedEntry := ⟨0, none, none, [("sessionId", Json.str "sess-1")]⟩

def uA : ParsedEntry := ⟨0, some ⟨none, some ⟨some 1000, none, none, none⟩, none⟩, none, []⟩

def uB : ParsedEntry := ⟨1, some ⟨none, some ⟨some 800, none, none, none⟩, none⟩, none, []⟩

/-- Stable merge of two sorted runs, preferring the left run on equal
timestamps: the reference shape of the stable sort of an append. -/
def mergeTs : List ParsedEntry → List ParsedEntry → List ParsedEntry
  | [], ys => ys
  | xs, [] => xs
  | x :: xs, y :: ys =>
    if tsLe x y then x :: mergeTs xs (y :: ys) else y :: mergeTs (x :: xs) ys

end Powerline

namespace Powerline

/-!  Theorems for the claims. -/

/-- Helper: the state after a block step always has an open block start. -/
theorem blockStep_start_isSome (st : BlockState) (e : ParsedEntry) :
    (blockStep st e).start ≠ none := by
  unfold blockStep
  cases st.start with
  | none => simp
  | some bs => dsimp only; split <;> simp

/-- Helper: the emitted blocks plus the open block always concatenate to
the records processed so far. -/
theorem identify_foldl_join (l : List ParsedEntry) :
    ∀ st : BlockState, (st.start = none → st.cur = []) →
      ((l.foldl blockStep st).blocks ++
        (if (l.foldl blockStep st).cur.isEmpty then [] else [(l.foldl blockStep st).cur])).flatten
        = st.blocks.flatten ++ st.cur ++ l := by
  induction l with
  | nil =>
    intro st hst
    by_cases hc : st.cur.isEmpty
    · rw [List.isEmpty_iff] at hc
      simp [hc]
    · simp [hc]
  | cons e l ih =>
    intro st hst
    rw [List.foldl_cons]
    rw [ih (blockStep st e) (fun h => absurd h (blockStep_start_isSome st e))]
    cases hs : st.start with
    | none =>
      have hcur := hst hs
      simp [blockStep, hs, hcur]
    | some bs =>
      simp only [blockStep, hs]
      split
      · by_cases hc : st.cur.isEmpty
        · rw [List.isEmpty_iff] at hc
          simp [hc]
        · simp [hc]
      · simp

end Powerline

namespace Powerline

/-- C5: on a sorted stream the block identifier opens the first block at
the hour floor of the first timestamp, starts a new block exactly when a
record is more than 5 hours past the block start or past the previous
record, and in particular records at an hour aligned T, T + 4h59m and
T + 5h01m produce exactly two blocks with the third record opening the
second; moreover the emitted blocks partition the record stream in
order. -/
theorem claim_C5_session_blocks :
    (∀ (T : Int) (e1 e2 e3 : ParsedEntry), T % 3600000 = 0 →
      e1.timestamp = T → e2.timestamp = T + 17940000 → e3.timestamp = T + 18060000 →
      identify_session_blocks [e1, e2, e3] = [[e1, e2], [e3]]) ∧
    (∀ l : List ParsedEntry, (identify_session_blocks l).flatten = l) := by
  constructor
  · intro T e1 e2 e3 hT h1 h2 h3
    simp [identify_session_blocks, blockStep, floor_to_hour, sessionDurationMs, h1, h2, h3, hT]
  · intro l
    have h := identify_foldl_join l ⟨[], [], none⟩ (fun _ => rfl)
    simpa [identify_session_blocks] using h

/-- C5 witness: the boundary scenario at T = 0. -/
theorem claim_C5_session_blocks_witness :
    identify_session_blocks [b5a, b5b, b5c] = [[b5a, b5b], [b5c]] :=
  claim_C5_session_blocks.1 0 b5a b5b b5c (by decide) rfl (by decide) (by decide)

end Powerline

namespace Powerline

/-- C6: active block resolution scans the emitted blocks from most
recent to oldest and returns the first block with now within 5 hours of
its last entry and now before its floored start plus 5 hours, returning
none when no block qualifies; a block started 4 hours ago whose last
record is 10 minutes old is returned, and a block whose last record is 6
hours old is not. -/
theorem claim_C6_active_block :
    (∀ (now : Int) (bs : List (List ParsedEntry)) (b : List ParsedEntry),
      find_active_block now bs = some b → blockActive now b = true) ∧
    (∀ (now : Int) (bs : List (List ParsedEntry)),
      find_active_block now bs = none ↔ ∀ b ∈ bs, blockActive now b = false) ∧
    (∀ (now : Int) (bs : List (List ParsedEntry)) (b : List ParsedEntry)
      (f g : ParsedEntry), b.head? = some f → b.getLast? = some g →
      floor_to_hour f.timestamp = now - 14400000 → g.timestamp = now - 600000 →
      find_active_block now (bs ++ [b]) = some b) ∧
    (∀ (now : Int) (b : List ParsedEntry) (g : ParsedEntry),
      b.getLast? = some g → now - g.timestamp = 21600000 →
      find_active_block now [b] = none) := by
  refine ⟨?_, ?_, ?_, ?_⟩
  · intro now bs b h
    exact List.find?_some h
  · intro now bs
    unfold find_active_block
    rw [List.find?_eq_none]
    simp
  · intro now bs b f g hf hg hfloor hts
    have hact : blockActive now b = true := by
      unfold blockActive
      rw [hf]
      simp only [hg, Option.map_some', Option.getD_some, hfloor, hts]
      rw [Bool.and_eq_true, decide_eq_true_eq, decide_eq_true_eq]
      unfold sessionDurationMs
      omega
    unfold find_active_block
    rw [List.reverse_append]
    simp [hact]
  · intro now b g hg hts
    have hinact : blockActive now b = false := by
      unfold blockActive
      cases hb : b.head? with
      | none => rfl
      | some f =>
        simp only [hg, Option.map_some', Option.getD_some, hts]
        rw [Bool.and_eq_false_iff]
        left
        rw [decide_eq_false_iff_not]
        unfold sessionDurationMs
        omega
    simp [find_active_block, hinact]

/-- C6 witness: the 4-hours-old block with a 10-minute-old last record
is found; the block with a 6-hours-old last record is not. -/
theorem claim_C6_active_block_witness :
    blockActive 14400000 [c6a, c6b] = true ∧
    find_active_block 14400000 ([] ++ [[c6a, c6b]]) = some [c6a, c6b] ∧
    find_active_block 21600000 [[c6z]] = none :=
  ⟨claim_C6_active_block.1 14400000 [[c6a, c6b]] [c6a, c6b] rfl,
   claim_C6_active_block.2.2.1 14400000 [] [c6a, c6b] c6a c6b rfl rfl (by decide) (by decide),
   claim_C6_active_block.2.2.2 21600000 [c6z] c6z rfl (by decide)⟩

/-- C8: for identical file bytes the memory mapped parse path (taken at
1 MiB and above) and the buffered parse path return identical record
sequences, uniformly in the shared line decoder. -/
theorem claim_C8_parse_paths_agree (dec : LineDecoder) (content : String) :
    parse_jsonl_file_mmap dec content = parse_jsonl_file_regular dec content := by
  unfold parse_jsonl_file_mmap parse_jsonl_file_regular
  split <;> rfl

/-- C9 counterexample: load_session_entries applies no deduplication: a
file of two identical decodable lines yields two records with the same
complete dedup key m:r, refuting the claim that its result never holds
two records sharing a key. -/
theorem claim_C9_counterexample :
    (load_session_entries dupDecoder "s.jsonl" "x\nx").map create_unique_hash
      = [some ("m" ++ ":" ++ "r"), some ("m" ++ ":" ++ "r")] := rfl

/-- Helper: the streaming line loop is the filterMap of its per line
result over the lines. -/
theorem parse_lines_filterMap (dec : LineDecoder) (path : String) :
    ∀ (lines : List String) (acc : List ParsedEntry),
      lines.foldl
        (fun acc line =>
          if trimStr line = "" then acc
          else
            match dec (trimStr line) with
            | .ok (some e) => acc ++ [{ e with source_file := some path }]
            | .ok none => acc
            | .error _ => acc) acc
        = acc ++ lines.filterMap (fun line =>
            if trimStr line = "" then none
            else
              match dec (trimStr line) with
              | .ok (some e) => some { e with source_file := some path }
              | .ok none => none
              | .error _ => none) := by
  intro lines
  induction lines with
  | nil => intro acc; simp
  | cons line rest ih =>
    intro acc
    rw [List.foldl_cons, List.filterMap_cons]
    by_cases ht : trimStr line = ""
    · simp only [if_pos ht]
      rw [ih acc]
    · simp only [if_neg ht]
      cases hd : dec (trimStr line) with
      | error u => dsimp only; rw [ih acc]
      | ok o =>
        cases o with
        | none => dsimp only; rw [ih acc]
        | some e =>
          dsimp only
          rw [ih]
          simp

/-- C9 amended: load_for_session parses exactly the one named file and
applies no deduplication at all: its output is exactly the per line
decode results in file order, each tagged with the path, so records
sharing a complete dedup key are all kept. -/
theorem claim_C9_single_file_no_dedup (dec : LineDecoder) (path content : String) :
    load_session_entries dec path content =
      (splitNl content).filterMap (fun line =>
        if trimStr line = "" then none
        else
          match dec (trimStr line) with
          | .ok (some e) => some { e with source_file := some path }
          | .ok none => none
          | .error _ => none) := by
  unfold load_session_entries parse_transcript_file_streaming
  exact (parse_lines_filterMap dec path (splitNl content) []).trans (List.nil_append _)

end Powerline

namespace Powerline

/-- Helper: sorting a singleton group. -/
theorem sortTs_singleton (e : ParsedEntry) : sortTs [e] = [e] := rfl

/-- C2: records with cumulative input counters 1000 and 500 under two
distinct session keys contribute 1000 + 500 = 1500 input tokens, not
saturating_sub 500 1000 = 0: the previous counter state is kept per
session key and starts at zero for each group, so a counter drop across
distinct keys is never treated as a reset within one session. -/
theorem claim_C2_cross_session_reset (e1 e2 : ParsedEntry) (m1 m2 : MessageInfo)
    (u1 u2 : UsageInfo)
    (hk : session_key e1 ≠ session_key e2)
    (hm1 : e1.message = some m1) (hu1 : m1.usage = some u1)
    (hi1 : u1.input_tokens = some 1000)
    (hm2 : e2.message = some m2) (hu2 : m2.usage = some u2)
    (hi2 : u2.input_tokens = some 500) :
    (calculate_token_breakdown [e1, e2]).input_tokens = 1500 := by
  have hkeys : keysOf [e1, e2] = [session_key e1, session_key e2] := by
    simp [keysOf, List.dedup_cons_of_not_mem, hk]
  have hg1 : groupFor [e1, e2] (session_key e1) = [e1] := by
    simp [groupFor, List.filter_cons, Ne.symm hk]
  have hg2 : groupFor [e1, e2] (session_key e2) = [e2] := by
    simp [groupFor, List.filter_cons, hk]
  rw [calculate_token_breakdown, hkeys]
  simp only [List.foldl_cons, List.foldl_nil, hg1, hg2]
  simp [groupBreakdown, sortTs_singleton, breakdownStep, hm1, hu1, hi1, hm2, hu2, hi2,
    TokenBreakdown.add, addU32, U32]

end Powerline

namespace Powerline

/-- Helper: a record whose message or usage is absent leaves the delta
state of the breakdown loop untouched (the loop neither updates the
previous counters nor the totals). -/
theorem breakdownStep_skip (e : ParsedEntry) (h : e.message.bind (fun m => m.usage) = none)
    (st : PrevCounters × TokenBreakdown) : breakdownStep st e = st := by
  cases hmsg : e.message with
  | none => simp [breakdownStep, hmsg]
  | some m =>
    rw [hmsg] at h
    have hu : m.usage = none := h
    simp [breakdownStep, hmsg, hu]

/-- Helper: the per-group breakdown ignores a record with no usage,
wherever its timestamp places it in the sorted group. -/
theorem groupBreakdown_skip (e : ParsedEntry) (h : e.message.bind (fun m => m.usage) = none)
    (g : List ParsedEntry) : groupBreakdown (e :: g) = groupBreakdown g := by
  unfold groupBreakdown
  have hsplit : sortTs (e :: g) =
      ((sortTs g).takeWhile fun b => ¬ tsLe e b) ++
        e :: ((sortTs g).dropWhile fun b => ¬ tsLe e b) :=
    List.orderedInsert_eq_take_drop tsLe e (sortTs g)
  rw [hsplit, List.foldl_append, List.foldl_cons, breakdownStep_skip e h,
    ← List.foldl_append, List.takeWhile_append_dropWhile]

/-- Helper: group membership after prepending a record. -/
theorem groupFor_cons (e : ParsedEntry) (l : List ParsedEntry) (k : String) :
    groupFor (e :: l) k = if session_key e = k then e :: groupFor l k else groupFor l k := by
  simp only [groupFor, List.filter_cons]
  split <;> simp_all

/-- C1: a single-session slice with cumulative input counters 1000,
1500, 1500 totals 1500 input tokens, not 4000: each usage-bearing record
contributes the saturating difference against the previous counter of
its session group, starting from zero, and a record without usage leaves
the running counters (and hence every total) untouched. -/
theorem claim_C1_cumulative_deltas :
    (∀ (e1 e2 e3 : ParsedEntry) (m1 m2 m3 : MessageInfo) (u1 u2 u3 : UsageInfo),
      session_key e2 = session_key e1 → session_key e3 = session_key e1 →
      e1.timestamp ≤ e2.timestamp → e2.timestamp ≤ e3.timestamp →
      e1.message = some m1 → m1.usage = some u1 → u1.input_tokens = some 1000 →
      e2.message = some m2 → m2.usage = some u2 → u2.input_tokens = some 1500 →
      e3.message = some m3 → m3.usage = some u3 → u3.input_tokens = some 1500 →
      (calculate_token_breakdown [e1, e2, e3]).input_tokens = 1500) ∧
    (∀ (e : ParsedEntry) (l : List ParsedEntry),
      e.message.bind (fun m => m.usage) = none →
      calculate_token_breakdown (e :: l) = calculate_token_breakdown l) := by
  constructor
  · intro e1 e2 e3 m1 m2 m3 u1 u2 u3 hk2 hk3 h12 h23 hm1 hu1 hi1 hm2 hu2 hi2 hm3 hu3 hi3
    have hkeys : keysOf [e1, e2, e3] = [session_key e1] := by
      simp [keysOf, hk2, hk3, List.dedup_cons_of_mem]
    have hg : groupFor [e1, e2, e3] (session_key e1) = [e1, e2, e3] := by
      simp [groupFor, List.filter_cons, hk2, hk3]
    have t12 : tsLe e1 e2 := h12
    have t13 : tsLe e1 e3 := le_trans h12 h23
    have t23 : tsLe e2 e3 := h23
    have hsorted : List.Sorted tsLe [e1, e2, e3] := by
      refine List.Pairwise.cons ?_ (List.Pairwise.cons ?_ (List.pairwise_singleton _ _))
      · intro b hb
        simp only [List.mem_cons, List.not_mem_nil, or_false] at hb
        rcases hb with rfl | rfl
        · exact t12
        · exact t13
      · intro b hb
        simp only [List.mem_cons, List.not_mem_nil, or_false] at hb
        rcases hb with rfl
        exact t23
    have hs : sortTs [e1, e2, e3] = [e1, e2, e3] := hsorted.insertionSort_eq
    rw [calculate_token_breakdown, hkeys]
    simp only [List.foldl_cons, List.foldl_nil, hg]
    rw [groupBreakdown, hs]
    simp [breakdownStep, hm1, hu1, hi1, hm2, hu2, hi2, hm3, hu3, hi3,
      TokenBreakdown.add, addU32, U32]
  · intro e l h
    have hstep : ∀ k, groupBreakdown (groupFor (e :: l) k) = groupBreakdown (groupFor l k) := by
      intro k
      rw [groupFor_cons]
      split
      · rw [groupBreakdown_skip e h]
      · rfl
    have hfun :
        (fun (acc : TokenBreakdown) k => acc.add (groupBreakdown (groupFor (e :: l) k)))
          = fun (acc : TokenBreakdown) k => acc.add (groupBreakdown (groupFor l k)) := by
      funext acc k
      rw [hstep k]
    by_cases hmem : session_key e ∈ l.map session_key
    · have hkeys : keysOf (e :: l) = keysOf l := by
        simp only [keysOf, List.map_cons]
        exact List.dedup_cons_of_mem hmem
      rw [calculate_token_breakdown, calculate_token_breakdown, hkeys, hfun]
    · have hkeys : keysOf (e :: l) = session_key e :: keysOf l := by
        simp only [keysOf, List.map_cons]
        exact List.dedup_cons_of_not_mem hmem
      have hempty : groupFor l (session_key e) = [] := by
        unfold groupFor
        rw [List.filter_eq_nil_iff]
        intro a ha
        simp only [decide_eq_true_eq]
        intro hcontra
        exact hmem (List.mem_map.2 ⟨a, ha, hcontra⟩)
      have hself : groupFor (e :: l) (session_key e) = [e] := by
        rw [groupFor_cons, if_pos rfl, hempty]
      rw [calculate_token_breakdown, calculate_token_breakdown, hkeys, List.foldl_cons, hself]
      have hone : groupBreakdown [e] = ⟨0, 0, 0, 0⟩ := by
        rw [show ([e] : List ParsedEntry) = e :: [] from rfl, groupBreakdown_skip e h]
        rfl
      rw [hone, hfun]
      have hzero : TokenBreakdown.add ⟨0, 0, 0, 0⟩ ⟨0, 0, 0, 0⟩ = ⟨0, 0, 0, 0⟩ := by
        simp [TokenBreakdown.add, addU32]
      rw [hzero]

end Powerline

namespace Powerline

/-- Helper: a two-record list in timestamp order is already sorted. -/
theorem sortTs_pair (e1 e2 : ParsedEntry) (h : e1.timestamp ≤ e2.timestamp) :
    sortTs [e1, e2] = [e1, e2] := by
  have hs : List.Sorted tsLe [e1, e2] := by
    refine List.Pairwise.cons ?_ (List.pairwise_singleton _ _)
    intro b hb
    simp only [List.mem_cons, List.not_mem_nil, or_false] at hb
    rcases hb with rfl
    exact h
  exact hs.insertionSort_eq

/-- C1 witness: the 1000, 1500, 1500 slice totals 1500, and a no-usage
record changes nothing. -/
theorem claim_C1_cumulative_deltas_witness :
    (calculate_token_breakdown [wA, wB, wC]).input_tokens = 1500 ∧
    calculate_token_breakdown [wSkip, wA] = calculate_token_breakdown [wA] :=
  ⟨claim_C1_cumulative_deltas.1 wA wB wC _ _ _ _ _ _ (by decide) (by decide) (by decide)
      (by decide) rfl rfl rfl rfl rfl rfl rfl rfl rfl,
   claim_C1_cumulative_deltas.2 wSkip [wA] rfl⟩

/-- C2 witness: counters 1000 (session w) then 500 (session x) total
1500. -/
theorem claim_C2_cross_session_reset_witness :
    (calculate_token_breakdown [wA, xB]).input_tokens = 1500 :=
  claim_C2_cross_session_reset wA xB _ _ _ _ (by decide) rfl rfl rfl rfl rfl rfl

/-- C7: weighted tokens multiply each record delta total by 5 for an
opus model (case-insensitive substring test), by 1 otherwise and when no
model is present; a 1500-token sonnet record with a 15000-token opus
record weighs 1*1500 + 5*15000 = 76500. -/
theorem claim_C7_weighted_tokens :
    (∀ (e1 e2 : ParsedEntry) (m1 m2 : MessageInfo) (u1 u2 : UsageInfo) (s1 s2 : String),
      session_key e1 ≠ session_key e2 →
      e1.message = some m1 → m1.usage = some u1 → m1.model = some s1 →
      charsContain (lowerChars s1) (String.data "opus") = false →
      u1.input_tokens = some 1500 → u1.output_tokens = none →
      u1.cache_creation_input_tokens = none → u1.cache_read_input_tokens = none →
      e2.message = some m2 → m2.usage = some u2 → m2.model = some s2 →
      charsContain (lowerChars s2) (String.data "opus") = true →
      u2.input_tokens = some 15000 → u2.output_tokens = none →
      u2.cache_creation_input_tokens = none → u2.cache_read_input_tokens = none →
      calculate_weighted_tokens [e1, e2] = 76500) ∧
    (∀ (e : ParsedEntry) (m : MessageInfo) (u : UsageInfo) (n : Nat),
      e.message = some m → m.usage = some u → m.model = none →
      u.input_tokens = some n → u.output_tokens = none →
      u.cache_creation_input_tokens = none → u.cache_read_input_tokens = none →
      n < U32 →
      calculate_weighted_tokens [e] = n) ∧
    get_model_rate_limit_weight "CLAUDE-Opus-4" = 5 ∧
    get_model_rate_limit_weight "claude-sonnet-4" = 1 := by
  refine ⟨?_, ?_, by decide, by decide⟩
  · intro e1 e2 m1 m2 u1 u2 s1 s2 hk hm1 hu1 hmod1 hop1 hi1 ho1 hc1 hr1
      hm2 hu2 hmod2 hop2 hi2 ho2 hc2 hr2
    have hkeys : keysOf [e1, e2] = [session_key e1, session_key e2] := by
      simp [keysOf, List.dedup_cons_of_not_mem, hk]
    have hg1 : groupFor [e1, e2] (session_key e1) = [e1] := by
      simp [groupFor, List.filter_cons, Ne.symm hk]
    have hg2 : groupFor [e1, e2] (session_key e2) = [e2] := by
      simp [groupFor, List.filter_cons, hk]
    rw [calculate_weighted_tokens, hkeys]
    simp only [List.foldl_cons, List.foldl_nil, hg1, hg2]
    simp [groupWeighted, sortTs_singleton, weightedStep, get_model_rate_limit_weight,
      hm1, hu1, hmod1, hop1, hi1, ho1, hc1, hr1,
      hm2, hu2, hmod2, hop2, hi2, ho2, hc2, hr2, U32]
  · intro e m u n hm hu hmod hi ho hc hr hn
    have hkeys : keysOf [e] = [session_key e] := by
      simp [keysOf]
    have hg : groupFor [e] (session_key e) = [e] := by
      simp [groupFor, List.filter_cons]
    rw [calculate_weighted_tokens, hkeys]
    simp only [List.foldl_cons, List.foldl_nil, hg]
    simp [groupWeighted, sortTs_singleton, weightedStep, hm, hu, hmod, hi, ho, hc, hr, U32]
    simp only [U32] at hn
    omega

/-- C7 witness: the sonnet and opus records weigh 76500, and a
model-less record weighs its own 42 delta tokens. -/
theorem claim_C7_weighted_tokens_witness :
    calculate_weighted_tokens [vS, vO] = 76500 ∧ calculate_weighted_tokens [vN] = 42 :=
  ⟨claim_C7_weighted_tokens.1 vS vO _ _ _ _ _ _ (by decide) rfl rfl rfl (by decide)
      rfl rfl rfl rfl rfl rfl rfl (by decide) rfl rfl rfl rfl,
   claim_C7_weighted_tokens.2.1 vN _ _ 42 rfl rfl rfl rfl rfl rfl rfl (by decide)⟩

end Powerline

namespace Powerline

/-- C10: a record without a source_file is grouped under its raw top
level sessionId string when that is present, and under the literal
"unknown" otherwise; hence two records lacking both identifiers fall
into one cumulative-counter group and their deltas are taken against
each other (counters 1000 then 800 total 1000, not 1800). -/
theorem claim_C10_session_key_fallback :
    (∀ (e : ParsedEntry) (s : String), e.source_file = none →
      e.raw.lookup "sessionId" = some (Json.str s) → session_key e = s) ∧
    (∀ e : ParsedEntry, e.source_file = none →
      (e.raw.lookup "sessionId").bind Json.asStr = none → session_key e = "unknown") ∧
    (∀ (e1 e2 : ParsedEntry) (m1 m2 : MessageInfo) (u1 u2 : UsageInfo),
      e1.source_file = none → e2.source_file = none →
      (e1.raw.lookup "sessionId").bind Json.asStr = none →
      (e2.raw.lookup "sessionId").bind Json.asStr = none →
      e1.timestamp ≤ e2.timestamp →
      e1.message = some m1 → m1.usage = some u1 → u1.input_tokens = some 1000 →
      e2.message = some m2 → m2.usage = some u2 → u2.input_tokens = some 800 →
      (calculate_token_breakdown [e1, e2]).input_tokens = 1000) := by
  refine ⟨?_, ?_, ?_⟩
  · intro e s hsf hsid
    simp [session_key, hsf, hsid, Json.asStr]
  · intro e hsf hsid
    simp [session_key, hsf, hsid]
  · intro e1 e2 m1 m2 u1 u2 hsf1 hsf2 hsid1 hsid2 hts hm1 hu1 hi1 hm2 hu2 hi2
    have hk1 : session_key e1 = "unknown" := by simp [session_key, hsf1, hsid1]
    have hk2 : session_key e2 = "unknown" := by simp [session_key, hsf2, hsid2]
    have hkeys : keysOf [e1, e2] = ["unknown"] := by
      simp [keysOf, hk1, hk2, List.dedup_cons_of_mem]
    have hg : groupFor [e1, e2] "unknown" = [e1, e2] := by
      simp [groupFor, List.filter_cons, hk1, hk2]
    rw [calculate_token_breakdown, hkeys]
    simp only [List.foldl_cons, List.foldl_nil, hg]
    rw [groupBreakdown, sortTs_pair e1 e2 hts]
    simp [breakdownStep, hm1, hu1, hi1, hm2, hu2, hi2, TokenBreakdown.add, addU32, U32]

/-- C10 witness: sessionId fallback, unknown fallback, and the shared
unknown group totalling 1000. -/
theorem claim_C10_session_key_fallback_witness :
    session_key uSid = "sess-1" ∧ session_key uA = "unknown" ∧
    (calculate_token_breakdown [uA, uB]).input_tokens = 1000 :=
  ⟨claim_C10_session_key_fallback.1 uSid "sess-1" rfl rfl,
   claim_C10_session_key_fallback.2.1 uA rfl rfl,
   claim_C10_session_key_fallback.2.2 uA uB _ _ _ _ rfl rfl rfl rfl (by decide)
     rfl rfl rfl rfl rfl rfl⟩

end Powerline

namespace Powerline

/-- Helper: dedup step on a keyless record. -/
theorem dedupAux_cons_none (e : ParsedEntry) (rest : List ParsedEntry) (seen : List String)
    (h : create_unique_hash e = none) :
    dedupAux (e :: rest) seen = e :: dedupAux rest seen := by
  simp [dedupAux, h]

/-- Helper: dedup step on a record whose key was already seen. -/
theorem dedupAux_cons_seen (e : ParsedEntry) (rest : List ParsedEntry) (seen : List String)
    (g : String) (h : create_unique_hash e = some g) (hm : g ∈ seen) :
    dedupAux (e :: rest) seen = dedupAux rest seen := by
  simp [dedupAux, h, hm]

/-- Helper: dedup step on a record with a fresh key. -/
theorem dedupAux_cons_new (e : ParsedEntry) (rest : List ParsedEntry) (seen : List String)
    (g : String) (h : create_unique_hash e = some g) (hm : g ∉ seen) :
    dedupAux (e :: rest) seen = e :: dedupAux rest (g :: seen) := by
  simp [dedupAux, h, hm]

/-- Helper: the dedup walk returns a sublist of its input. -/
theorem dedupAux_sublist :
    ∀ (t : List ParsedEntry) (seen : List String), List.Sublist (dedupAux t seen) t := by
  intro t
  induction t with
  | nil => intro seen; simp [dedupAux]
  | cons e rest ih =>
    intro seen
    cases hkey : create_unique_hash e with
    | none =>
      rw [dedupAux_cons_none e rest seen hkey]
      exact (ih seen).cons₂ e
    | some g =>
      by_cases hmem : g ∈ seen
      · rw [dedupAux_cons_seen e rest seen g hkey hmem]
        exact (ih seen).cons e
      · rw [dedupAux_cons_new e rest seen g hkey hmem]
        exact (ih (g :: seen)).cons₂ e

/-- Helper: among records carrying the dedup key h, the dedup walk keeps
exactly the first one of its input, and none at all once h was already
seen. -/
theorem dedupAux_filter_key (h : String) :
    ∀ (t : List ParsedEntry) (seen : List String),
      (dedupAux t seen).filter (fun e => decide (create_unique_hash e = some h))
        = if h ∈ seen then []
          else (t.filter (fun e => decide (create_unique_hash e = some h))).take 1 := by
  intro t
  induction t with
  | nil => intro seen; simp [dedupAux]
  | cons e rest ih =>
    intro seen
    cases hkey : create_unique_hash e with
    | none =>
      rw [dedupAux_cons_none e rest seen hkey,
        List.filter_cons_of_neg (by simp [hkey]),
        List.filter_cons_of_neg (by simp [hkey])]
      exact ih seen
    | some g =>
      by_cases hmem : g ∈ seen
      · rw [dedupAux_cons_seen e rest seen g hkey hmem, ih seen]
        by_cases hgh : g = h
        · subst hgh
          rw [if_pos hmem, if_pos hmem]
        · rw [List.filter_cons_of_neg (by simp [hkey, hgh])]
      · rw [dedupAux_cons_new e rest seen g hkey hmem]
        by_cases hgh : g = h
        · subst hgh
          rw [List.filter_cons_of_pos (by simp [hkey]),
            List.filter_cons_of_pos (by simp [hkey]),
            ih (g :: seen), if_pos (List.mem_cons_self g seen), if_neg hmem]
          simp
        · rw [List.filter_cons_of_neg (by simp [hkey, hgh]),
            List.filter_cons_of_neg (by simp [hkey, hgh]),
            ih (g :: seen)]
          by_cases hs : h ∈ seen
          · rw [if_pos (List.mem_cons_of_mem g hs), if_pos hs]
          · rw [if_neg ?_, if_neg hs]
            intro hc
            rcases List.mem_cons.1 hc with rfl | hc
            · exact hgh rfl
            · exact hs hc

/-- Helper: the dedup walk keeps every record without a dedup key. -/
theorem dedupAux_filter_keyless :
    ∀ (t : List ParsedEntry) (seen : List String),
      (dedupAux t seen).filter (fun e => decide (create_unique_hash e = none))
        = t.filter (fun e => decide (create_unique_hash e = none)) := by
  intro t
  induction t with
  | nil => intro seen; simp [dedupAux]
  | cons e rest ih =>
    intro seen
    cases hkey : create_unique_hash e with
    | none =>
      rw [dedupAux_cons_none e rest seen hkey,
        List.filter_cons_of_pos (by simp [hkey]),
        List.filter_cons_of_pos (by simp [hkey]), ih seen]
    | some g =>
      by_cases hmem : g ∈ seen
      · rw [dedupAux_cons_seen e rest seen g hkey hmem, ih seen,
          List.filter_cons_of_neg (by simp [hkey])]
      · rw [dedupAux_cons_new e rest seen g hkey hmem,
          List.filter_cons_of_neg (by simp [hkey]),
          List.filter_cons_of_neg (by simp [hkey]), ih (g :: seen)]

/-- Helper: inserting a record puts it in front of the records sharing
its timestamp, so per-timestamp slices gain the record at the front. -/
theorem orderedInsert_filter_ts (x : ParsedEntry) (t : Int) :
    ∀ s : List ParsedEntry,
      (List.orderedInsert tsLe x s).filter (fun e => decide (e.timestamp = t))
        = (if x.timestamp = t then [x] else [])
            ++ s.filter (fun e => decide (e.timestamp = t)) := by
  intro s
  induction s with
  | nil =>
    rw [List.orderedInsert, List.filter_nil]
    by_cases hx : x.timestamp = t
    · rw [List.filter_cons_of_pos (by simp [hx]), if_pos hx]
      simp
    · rw [List.filter_cons_of_neg (by simp [hx]), if_neg hx]
      simp
  | cons b s ih =>
    rw [List.orderedInsert]
    by_cases hle : tsLe x b
    · rw [if_pos hle]
      by_cases hx : x.timestamp = t
      · rw [List.filter_cons_of_pos (by simp [hx]), if_pos hx]
        rfl
      · rw [List.filter_cons_of_neg (by simp [hx]), if_neg hx]
        rfl
    · rw [if_neg hle]
      by_cases hb : b.timestamp = t
      · have hx : ¬ x.timestamp = t := by
          intro hx
          exact hle (le_of_eq (hx.trans hb.symm))
        rw [List.filter_cons_of_pos (by simp [hb]),
          List.filter_cons_of_pos (by simp [hb]), ih, if_neg hx]
        simp
      · rw [List.filter_cons_of_neg (by simp [hb]),
          List.filter_cons_of_neg (by simp [hb]), ih]

/-- Helper: the stable sort preserves each per-timestamp slice of the
input (stability of the sort). -/
theorem sortTs_filter_ts (t : Int) :
    ∀ l : List ParsedEntry,
      (sortTs l).filter (fun e => decide (e.timestamp = t))
        = l.filter (fun e => decide (e.timestamp = t)) := by
  intro l
  induction l with
  | nil => rfl
  | cons x l ih =>
    rw [show sortTs (x :: l) = List.orderedInsert tsLe x (sortTs l) from rfl]
    rw [orderedInsert_filter_ts, ih]
    by_cases hx : x.timestamp = t
    · rw [if_pos hx, List.filter_cons_of_pos (by simp [hx])]
      rfl
    · rw [if_neg hx, List.filter_cons_of_neg (by simp [hx])]
      rfl

/-- C3: the global dedup-and-sort output is sorted by timestamp, is
stable (each per-timestamp slice of the output is a subsequence of the
corresponding slice of the input), keeps at most one record per dedup
key, namely the first record with that key in timestamp order, and keeps
every record lacking a dedup key. -/
theorem claim_C3_dedup_sort (l : List ParsedEntry) :
    List.Sorted tsLe (deduplicate_and_sort l) ∧
    (∀ t : Int, List.Sublist
        ((deduplicate_and_sort l).filter (fun e => decide (e.timestamp = t)))
        (l.filter (fun e => decide (e.timestamp = t)))) ∧
    (∀ h : String,
      (deduplicate_and_sort l).filter (fun e => decide (create_unique_hash e = some h))
        = ((sortTs l).filter (fun e => decide (create_unique_hash e = some h))).take 1) ∧
    (deduplicate_and_sort l).filter (fun e => decide (create_unique_hash e = none))
        = (sortTs l).filter (fun e => decide (create_unique_hash e = none)) := by
  refine ⟨?_, ?_, ?_, ?_⟩
  · exact (List.sorted_insertionSort tsLe l).sublist (dedupAux_sublist (sortTs l) [])
  · intro t
    have h1 := (dedupAux_sublist (sortTs l) []).filter
      (fun e => decide (e.timestamp = t))
    rw [sortTs_filter_ts t l] at h1
    exact h1
  · intro h
    rw [show deduplicate_and_sort l = dedupAux (sortTs l) [] from rfl,
      dedupAux_filter_key h (sortTs l) [], if_neg (List.not_mem_nil h)]
  · exact dedupAux_filter_keyless (sortTs l) []

end Powerline

namespace Powerline

/-- Helper: merging with an empty right run. -/
theorem mergeTs_nil_right (xs : List ParsedEntry) : mergeTs xs [] = xs := by
  cases xs <;> simp [mergeTs]

/-- Helper: ordered insertion commutes with the stable merge on the left
run (only totality and transitivity of the timestamp order are used). -/
theorem orderedInsert_mergeTs (x : ParsedEntry) :
    ∀ (s₁ s₂ : List ParsedEntry),
      List.orderedInsert tsLe x (mergeTs s₁ s₂) = mergeTs (List.orderedInsert tsLe x s₁) s₂ := by
  intro s₁
  induction s₁ with
  | nil =>
    intro s₂
    induction s₂ with
    | nil => simp [mergeTs]
    | cons z s₂ ih2 =>
      rw [show mergeTs [] (z :: s₂) = z :: s₂ from by simp [mergeTs]]
      rw [List.orderedInsert, List.orderedInsert]
      by_cases hxz : tsLe x z
      · rw [if_pos hxz]
        simp [mergeTs, hxz]
      · rw [if_neg hxz]
        rw [show mergeTs [x] (z :: s₂) = z :: mergeTs [x] s₂ from by simp [mergeTs, hxz]]
        have ih2b := ih2
        rw [show mergeTs [] s₂ = s₂ from by simp [mergeTs],
          show List.orderedInsert tsLe x [] = [x] from rfl] at ih2b
        rw [ih2b]
  | cons y s₁ ih1 =>
    intro s₂
    induction s₂ with
    | nil =>
      rw [mergeTs_nil_right, mergeTs_nil_right]
    | cons z s₂ ih2 =>
      by_cases hyz : tsLe y z
      · rw [show mergeTs (y :: s₁) (z :: s₂) = y :: mergeTs s₁ (z :: s₂) from by
          simp [mergeTs, hyz]]
        rw [List.orderedInsert]
        by_cases hxy : tsLe x y
        · rw [if_pos hxy]
          have hxz : tsLe x z := Int.le_trans hxy hyz
          rw [show List.orderedInsert tsLe x (y :: s₁) = x :: y :: s₁ from by
            rw [List.orderedInsert, if_pos hxy]]
          rw [show mergeTs (x :: y :: s₁) (z :: s₂) = x :: mergeTs (y :: s₁) (z :: s₂) from by
            simp [mergeTs, hxz]]
          rw [show mergeTs (y :: s₁) (z :: s₂) = y :: mergeTs s₁ (z :: s₂) from by
            simp [mergeTs, hyz]]
        · rw [if_neg hxy, ih1 (z :: s₂)]
          rw [show List.orderedInsert tsLe x (y :: s₁) = y :: List.orderedInsert tsLe x s₁ from by
            rw [List.orderedInsert, if_neg hxy]]
          rw [show mergeTs (y :: List.orderedInsert tsLe x s₁) (z :: s₂)
              = y :: mergeTs (List.orderedInsert tsLe x s₁) (z :: s₂) from by
            simp [mergeTs, hyz]]
      · rw [show mergeTs (y :: s₁) (z :: s₂) = z :: mergeTs (y :: s₁) s₂ from by
          simp [mergeTs, hyz]]
        rw [List.orderedInsert]
        by_cases hxz : tsLe x z
        · rw [if_pos hxz]
          have hzy : tsLe z y := le_of_not_le hyz
          have hxy : tsLe x y := Int.le_trans hxz hzy
          rw [show List.orderedInsert tsLe x (y :: s₁) = x :: y :: s₁ from by
            rw [List.orderedInsert, if_pos hxy]]
          rw [show mergeTs (x :: y :: s₁) (z :: s₂) = x :: mergeTs (y :: s₁) (z :: s₂) from by
            simp [mergeTs, hxz]]
          rw [show mergeTs (y :: s₁) (z :: s₂) = z :: mergeTs (y :: s₁) s₂ from by
            simp [mergeTs, hyz]]
        · rw [if_neg hxz, ih2]
          by_cases hxy : tsLe x y
          · rw [show List.orderedInsert tsLe x (y :: s₁) = x :: y :: s₁ from by
              rw [List.orderedInsert, if_pos hxy]]
            rw [show mergeTs (x :: y :: s₁) (z :: s₂) = z :: mergeTs (x :: y :: s₁) s₂ from by
              simp [mergeTs, hxz]]
          · rw [show List.orderedInsert tsLe x (y :: s₁) = y :: List.orderedInsert tsLe x s₁ from by
              rw [List.orderedInsert, if_neg hxy]]
            rw [show mergeTs (y :: List.orderedInsert tsLe x s₁) (z :: s₂)
                = z :: mergeTs (y :: List.orderedInsert tsLe x s₁) s₂ from by
              simp [mergeTs, hyz]]

/-- Helper: the stable sort of an append is the stable merge of the two
sorts (this is exactly the stability of the sort at the split point). -/
theorem sortTs_append (l₁ l₂ : List ParsedEntry) :
    sortTs (l₁ ++ l₂) = mergeTs (sortTs l₁) (sortTs l₂) := by
  induction l₁ with
  | nil =>
    rw [List.nil_append]
    rw [show sortTs ([] : List ParsedEntry) = [] from rfl]
    rw [show mergeTs [] (sortTs l₂) = sortTs l₂ from by simp [mergeTs]]
  | cons x l₁ ih =>
    rw [List.cons_append]
    rw [show sortTs (x :: (l₁ ++ l₂)) = List.orderedInsert tsLe x (sortTs (l₁ ++ l₂)) from rfl]
    rw [ih, orderedInsert_mergeTs]
    rfl

/-- Helper: the dedup walk drops a run made of records whose keys were
all seen. -/
theorem dedupAux_of_all_seen :
    ∀ (mid : List ParsedEntry) (seen : List String),
      (∀ e ∈ mid, ∃ g, create_unique_hash e = some g ∧ g ∈ seen) →
      dedupAux mid seen = [] := by
  intro mid
  induction mid with
  | nil => intro seen _; rfl
  | cons e rest ih =>
    intro seen h
    obtain ⟨g, hg, hmem⟩ := h e (List.mem_cons_self e rest)
    rw [dedupAux_cons_seen e rest seen g hg hmem]
    exact ih seen (fun e he => h e (List.mem_cons_of_mem _ he))

/-- Helper: merging a sorted run with a copy of itself prefixed by
already-seen records changes nothing for the dedup walk: every record of
the right run is either already seen or duplicates a record that the
left run delivers first. -/
theorem dedupAux_mergeTs_absorb :
    ∀ (n : Nat) (s₁ mid : List ParsedEntry) (seen : List String),
      2 * s₁.length + mid.length = n →
      List.Sorted tsLe (mid ++ s₁) →
      (∀ e ∈ s₁, (create_unique_hash e).isSome) →
      (∀ e ∈ mid, ∃ g, create_unique_hash e = some g ∧ g ∈ seen) →
      dedupAux (mergeTs s₁ (mid ++ s₁)) seen = dedupAux s₁ seen := by
  intro n
  induction n using Nat.strong_induction_on with
  | _ n ih =>
    intro s₁ mid seen hlen hsort hkeys hmid
    cases s₁ with
    | nil =>
      rw [show mergeTs [] (mid ++ []) = mid ++ [] from by simp [mergeTs]]
      rw [List.append_nil]
      rw [dedupAux_of_all_seen mid seen hmid]
      rfl
    | cons a t₁ =>
      obtain ⟨ga, hga⟩ := Option.isSome_iff_exists.1 (hkeys a (List.mem_cons_self a t₁))
      cases mid with
      | nil =>
        rw [List.nil_append] at hsort ⊢
        rw [show mergeTs (a :: t₁) (a :: t₁) = a :: mergeTs t₁ (a :: t₁) from by
          simp [mergeTs, show tsLe a a from le_refl _]]
        by_cases hmem : ga ∈ seen
        · rw [dedupAux_cons_seen a _ seen ga hga hmem,
            dedupAux_cons_seen a t₁ seen ga hga hmem]
          refine ih (2 * t₁.length + 1)
            (by simp only [List.length_cons, List.length_nil] at hlen; omega)
            t₁ [a] seen rfl hsort
            (fun e he => hkeys e (List.mem_cons_of_mem a he)) ?_
          intro e he
          rw [List.mem_singleton] at he
          subst he
          exact ⟨ga, hga, hmem⟩
        · rw [dedupAux_cons_new a _ seen ga hga hmem,
            dedupAux_cons_new a t₁ seen ga hga hmem]
          congr 1
          refine ih (2 * t₁.length + 1)
            (by simp only [List.length_cons, List.length_nil] at hlen; omega)
            t₁ [a] (ga :: seen) rfl hsort
            (fun e he => hkeys e (List.mem_cons_of_mem a he)) ?_
          intro e he
          rw [List.mem_singleton] at he
          subst he
          exact ⟨ga, hga, List.mem_cons_self ga seen⟩
      | cons b mid' =>
        obtain ⟨gb, hgb, hgbmem⟩ := hmid b (List.mem_cons_self b mid')
        rw [List.cons_append] at hsort ⊢
        by_cases hab : tsLe a b
        · rw [show mergeTs (a :: t₁) (b :: (mid' ++ a :: t₁))
              = a :: mergeTs t₁ (b :: (mid' ++ a :: t₁)) from by simp [mergeTs, hab]]
          have hassoc : (b :: mid') ++ [a] ++ t₁ = b :: (mid' ++ a :: t₁) := by simp
          have hsort2 : List.Sorted tsLe ((b :: mid') ++ [a] ++ t₁) := by
            rw [hassoc]
            exact hsort
          by_cases hmem : ga ∈ seen
          · rw [dedupAux_cons_seen a _ seen ga hga hmem,
              dedupAux_cons_seen a t₁ seen ga hga hmem]
            rw [← hassoc]
            refine ih (2 * t₁.length + (mid'.length + 2)) (by simp only [List.length_cons] at hlen; omega)
              t₁ ((b :: mid') ++ [a]) seen (by simp) hsort2
              (fun e he => hkeys e (List.mem_cons_of_mem a he)) ?_
            intro e he
            rcases List.mem_append.1 he with he | he
            · exact hmid e he
            · rw [List.mem_singleton] at he
              subst he
              exact ⟨ga, hga, hmem⟩
          · rw [dedupAux_cons_new a _ seen ga hga hmem,
              dedupAux_cons_new a t₁ seen ga hga hmem]
            congr 1
            rw [← hassoc]
            refine ih (2 * t₁.length + (mid'.length + 2)) (by simp only [List.length_cons] at hlen; omega)
              t₁ ((b :: mid') ++ [a]) (ga :: seen) (by simp) hsort2
              (fun e he => hkeys e (List.mem_cons_of_mem a he)) ?_
            intro e he
            rcases List.mem_append.1 he with he | he
            · obtain ⟨g, hg, hgmem⟩ := hmid e he
              exact ⟨g, hg, List.mem_cons_of_mem ga hgmem⟩
            · rw [List.mem_singleton] at he
              subst he
              exact ⟨ga, hga, List.mem_cons_self ga seen⟩
        · rw [show mergeTs (a :: t₁) (b :: (mid' ++ a :: t₁))
              = b :: mergeTs (a :: t₁) (mid' ++ a :: t₁) from by simp [mergeTs, hab]]
          rw [dedupAux_cons_seen b _ seen gb hgb hgbmem]
          exact ih (2 * (t₁.length + 1) + mid'.length) (by simp only [List.length_cons] at hlen; omega)
            (a :: t₁) mid' seen (by simp) hsort.of_cons hkeys
            (fun e he => hmid e (List.mem_cons_of_mem b he))

/-- C4 counterexample: duplicating a record that lacks a dedup key is
not collapsed, so aggregating a file holding such a record twice is not
the same as aggregating it once (the output doubles). -/
theorem claim_C4_counterexample :
    ¬ (deduplicate_and_sort ([eNoKey] ++ [eNoKey]) = deduplicate_and_sort [eNoKey]) := by
  intro hcontra
  have hlen := congrArg List.length hcontra
  exact absurd hlen (by decide)

/-- C4 amended: for file contents all of whose records carry a complete
dedup key, aggregating the records concatenated with a second copy of
themselves gives exactly the records aggregated once. -/
theorem claim_C4_dedup_idempotent (l : List ParsedEntry)
    (hkeys : ∀ e ∈ l, (create_unique_hash e).isSome) :
    deduplicate_and_sort (l ++ l) = deduplicate_and_sort l := by
  unfold deduplicate_and_sort
  rw [sortTs_append]
  have h2 : ∀ e ∈ sortTs l, (create_unique_hash e).isSome := fun e he =>
    hkeys e ((List.perm_insertionSort tsLe l).mem_iff.1 he)
  exact dedupAux_mergeTs_absorb (2 * (sortTs l).length) (sortTs l) [] [] (by simp)
    (by simpa using List.sorted_insertionSort tsLe l) h2 (by simp)

/-- C4 witness: a keyed record duplicated into two copies collapses back
to the single-copy aggregation. -/
theorem claim_C4_dedup_idempotent_witness :
    (∀ e ∈ [eDup], (create_unique_hash e).isSome) ∧
    deduplicate_and_sort ([eDup] ++ [eDup]) = deduplicate_and_sort [eDup] :=
  ⟨by decide, claim_C4_dedup_idempotent [eDup] (by decide)⟩

end Powerline
